import Mathlib

set_option maxRecDepth 100000

/-!
Shallow embedding of the statics Go package: the Accept-Encoding preference
parser (ParseAcceptEncoding) and the FileServer content indexer, negotiating
handler and dispatcher (server.go).

Modelling conventions:
- Go strings are Lean String values; indexing is by character, which agrees
  with Go's byte indexing on the ASCII inputs all of the claims exercise.
- Go byte slices are List Nat.
- Go float64 quality values are modelled as ℚ, built with mkRat; the decimal
  literals the claims exercise are exact in both representations.
- The fallible stdlib collaborators keep their contracts: strconv.ParseFloat
  is modelled on plain decimal numerals, sort.Slice by its documented
  postcondition (a permutation ordered by the comparison, stability NOT
  guaranteed), and http.ServeContent as an opaque range-capable responder
  that never sets a Content-Encoding header.
-/

namespace Statics

/-- Go type AcceptEncoding (accept_encoding source, lines 9-12): an algorithm
name with its quality value. -/
structure AcceptEncoding where
  Algorithm : String
  QualityValue : ℚ
  deriving DecidableEq, Repr

/-- Go unicode whitespace test restricted to the ASCII whitespace characters
(space, tab, newline, vertical tab, form feed, carriage return); this is what
strings.TrimSpace strips on the ASCII header values the claims exercise. -/
def isSpaceCh (c : Char) : Bool :=
  c = ' ' || c = '\t' || c = '\n' || c = '\r' || c = Char.ofNat 11 || c = Char.ofNat 12

/-- Go strings.TrimSpace on ASCII input: drop whitespace from both ends. -/
def trimSpace (s : String) : String :=
  String.mk (((s.toList.dropWhile isSpaceCh).reverse.dropWhile isSpaceCh).reverse)

/-- Go strings.Split(s, ",") on the character list: split around every comma;
the empty input yields one empty field, exactly as in Go. -/
def splitCommaChars : List Char → List (List Char)
  | [] => [[]]
  | c :: t =>
    if c = ',' then [] :: splitCommaChars t
    else
      match splitCommaChars t with
      | [] => [c] :: []
      | g :: gs => (c :: g) :: gs

/-- Go strings.Split(s, ",") lifted back to String. -/
def splitComma (s : String) : List String :=
  (splitCommaChars s.toList).map String.mk

/-- Decimal digit string to Nat, most significant first. -/
def natOfDigits (l : List Char) : Nat :=
  l.foldl (fun n c => n * 10 + (c.toNat - 48)) 0

/-- Contract of strconv.ParseFloat(s, 64) on plain decimal numerals: an
optional sign, digits with an optional fraction part (at least one digit in
the mantissa), and an optional signed decimal exponent; anything else fails.
The value is exact as a rational. Hexadecimal, infinity and NaN spellings are
outside this model; no claim exercises them. -/
def parseQ (s : String) : Option ℚ :=
  let cs := s.toList
  if cs = [] then none else
  let sgn : Int := if cs.head? = some '-' then -1 else 1
  let cs1 := if cs.head? = some '-' || cs.head? = some '+' then cs.drop 1 else cs
  let d1 := cs1.takeWhile Char.isDigit
  let cs2 := cs1.dropWhile Char.isDigit
  let d2 := if cs2.head? = some '.' then (cs2.drop 1).takeWhile Char.isDigit else []
  let cs3 := if cs2.head? = some '.' then (cs2.drop 1).dropWhile Char.isDigit else cs2
  if d1 = [] ∧ d2 = [] then none else
  let mantNum : Int := sgn * (natOfDigits (d1 ++ d2) : Int)
  let mantDen : Nat := 10 ^ d2.length
  match cs3 with
  | [] => some (mkRat mantNum mantDen)
  | e :: t =>
    if e = 'e' ∨ e = 'E' then
      let esgn : Int := if t.head? = some '-' then -1 else 1
      let t1 := if t.head? = some '-' || t.head? = some '+' then t.drop 1 else t
      let ed := t1.takeWhile Char.isDigit
      let t2 := t1.dropWhile Char.isDigit
      if ed = [] ∨ t2 ≠ [] then none
      else
        let ex : Int := esgn * (natOfDigits ed : Int)
        if 0 ≤ ex then some (mkRat (mantNum * (10 ^ ex.toNat : Nat)) mantDen)
        else some (mkRat mantNum (mantDen * 10 ^ (-ex).toNat))
    else none

/-- Go strings.LastIndex(w, ";q=") on the character list: the largest index at
which the three-character marker occurs, or -1 when it does not occur. -/
def lastIndexMarker (s : List Char) : Int :=
  match ((List.range s.length).filter
      (fun i => (s.drop i).take 3 == [';', 'q', '='])).getLast? with
  | some i => (i : Int)
  | none => -1

/-- One token of ParseAcceptEncoding's inner loop (accept_encoding source,
lines 18-32): when the last ";q=" marker sits at a positive index, parse the
suffix as the weight and drop the token when that fails; otherwise (no marker,
or a marker at index 0) keep the whole trimmed token at default weight 1. -/
def parseToken (w : String) : Option AcceptEncoding :=
  let i := lastIndexMarker w.toList
  if 0 < i then
    match parseQ (trimSpace (String.mk (w.toList.drop (i.toNat + 3)))) with
    | none => none
    | some q => some ⟨trimSpace (String.mk (w.toList.take i.toNat)), q⟩
  else some ⟨trimSpace w, 1⟩

/-- The collection phase of ParseAcceptEncoding (accept_encoding source, lines
15-34): split every value on commas and gather the surviving tokens in input
order, before the final sort. -/
def collectAcceptEncoding (values : List String) : List AcceptEncoding :=
  (values.map (fun v => (splitComma v).filterMap parseToken)).flatten

/-- Sortedness in the sense of the comparison passed to sort.Slice (lines
35-37): every later element's quality value is ≤ every earlier one's. -/
def qSortedDesc (l : List AcceptEncoding) : Prop :=
  l.Pairwise (fun a b => b.QualityValue ≤ a.QualityValue)

instance (l : List AcceptEncoding) : Decidable (qSortedDesc l) := by
  unfold qSortedDesc; infer_instance

/-- The postcondition of ParseAcceptEncoding: its result is the collected
token list rearranged by sort.Slice. Go documents sort.Slice as NOT stable,
so the embedding keeps its contract relationally: the output is some
permutation of the collection that is ordered by weight descending. -/
def ParseAcceptEncodingSpec (values : List String) (out : List AcceptEncoding) : Prop :=
  (collectAcceptEncoding values).Perm out ∧ qSortedDesc out

instance (values : List String) (out : List AcceptEncoding) :
    Decidable (ParseAcceptEncodingSpec values out) :=
  inferInstanceAs (Decidable (_ ∧ _))

/-- Stable descending insertion: x goes in front of the first element whose
weight is ≤ x's weight. Since stableSortDesc inserts earlier-input elements
into the already-sorted later suffix, this places every element before the
later-input elements of equal weight, which is exactly stability. -/
def insertDesc (x : AcceptEncoding) : List AcceptEncoding → List AcceptEncoding
  | [] => [x]
  | y :: ys => if y.QualityValue ≤ x.QualityValue then x :: y :: ys else y :: insertDesc x ys

/-- The stable sort by weight descending; the reference point for the
stability question about sort.Slice. -/
def stableSortDesc : List AcceptEncoding → List AcceptEncoding
  | [] => []
  | x :: xs => insertDesc x (stableSortDesc xs)

/-- Association-list lookup with latest-binding-wins, the model of a Go map
whose writes are modelled by consing the new binding at the front. -/
def assocLookup {α : Type} (k : String) : List (String × α) → Option α
  | [] => none
  | (k2, v) :: t => if k2 = k then some v else assocLookup k t

/-- The selection loop of the negotiating handler (server.go lines 122-127):
the first algorithm of the preference list that is a key of the variant map,
or the empty string when none is. -/
def selectAlgorithm (prefs : List AcceptEncoding) (compressed : List (String × List Nat)) : String :=
  match prefs with
  | [] => ""
  | p :: rest =>
    if (assocLookup p.Algorithm compressed).isSome then p.Algorithm
    else selectAlgorithm rest compressed

/-- The parts of an http.Request the handlers read: the method, the Range
header value as returned by Header.Get (empty string when absent), the
Accept-Encoding values as returned by Header.Values, and the raw query. -/
structure Request where
  method : String
  rangeHeader : String
  acceptEncodingValues : List String
  rawQuery : String
  deriving DecidableEq, Repr

/-- What the negotiating handler does with the response: either it writes a
compressed variant itself (with the headers it sets and the body bytes it
copies), or it sets Content-Type and delegates to http.ServeContent with the
raw body — the range-capable responder. -/
inductive NegotiationResult where
  | compressed (headers : List (String × String)) (status : Nat) (body : List Nat)
  | rangeServe (contentType : String) (body : List Nat)
  deriving DecidableEq, Repr

/-- The negotiating handler for a file with precomputed variants (server.go
lines 119-144). The prefs argument stands for the result of
ParseAcceptEncoding on the request's Accept-Encoding values; theorems relate
it to the request through ParseAcceptEncodingSpec. A Range header forces the
zero algorithm, skipping selection; a selected algorithm produces a 200 with
the four headers the code sets and the full variant bytes (no body for HEAD);
otherwise the raw body goes to the range-capable responder. -/
def negotiate (compressed : List (String × List Nat)) (contentType lastModified : String)
    (body : List Nat) (req : Request) (prefs : List AcceptEncoding) : NegotiationResult :=
  let algorithm := if req.rangeHeader = "" then selectAlgorithm prefs compressed else ""
  if algorithm ≠ "" then
    NegotiationResult.compressed
      [("Accept-Ranges", "bytes"), ("Last-Modified", lastModified),
        ("Content-Encoding", algorithm), ("Content-Type", contentType)]
      200
      (if req.method ≠ "HEAD" then (assocLookup algorithm compressed).getD [] else [])
  else NegotiationResult.rangeServe contentType body

/-- The handler installed for a file without variants (server.go lines
146-149): set Content-Type and serve the raw body through the range-capable
responder. -/
def plainHandler (contentType : String) (body : List Nat) (_req : Request) : NegotiationResult :=
  NegotiationResult.rangeServe contentType body

/-- The response headers the repository's own code sets on each branch. On
the rangeServe branch only Content-Type is set before delegating to
http.ServeContent, whose contract adds validation and range headers but never
Content-Encoding. -/
def resultHeaders : NegotiationResult → List (String × String)
  | NegotiationResult.compressed hs _ _ => hs
  | NegotiationResult.rangeServe ct _ => [("Content-Type", ct)]

/-- The variant map literal of server.go lines 100-117, parameterised by the
two stdlib compressors (gzip.Writer and zlib.Writer at best compression):
exactly the keys named gzip and deflate, each mapped to the eagerly computed
compression of the raw body. -/
def buildVariants (gzipCompress deflateCompress : List Nat → List Nat) (body : List Nat) :
    List (String × List Nat) :=
  [("gzip", gzipCompress body), ("deflate", deflateCompress body)]

/-- Declarative first-match: a is the algorithm of some preference entry that
is a key of the variant map, and no earlier entry's algorithm is a key. -/
def isFirstMatch (prefs : List AcceptEncoding) (compressed : List (String × List Nat))
    (a : String) : Prop :=
  ∃ pre p post, prefs = pre ++ p :: post ∧ p.Algorithm = a ∧
    (assocLookup a compressed).isSome = true ∧
    ∀ q ∈ pre, (assocLookup q.Algorithm compressed).isSome = false

/-- Go type option (server.go lines 39-43), with the two configuration fields
the compressibility decision reads; the content length is a Go int. -/
structure option where
  compressibleContentTypes : List String
  compressibleContentLength : Int
  deriving DecidableEq, Repr

/-- The default compressible content types of FileServer (server.go 47-58). -/
def defaultCompressibleContentTypes : List String :=
  ["application/atom+xml", "application/javascript", "application/json",
    "application/rss+xml", "application/x-javascript", "image/svg+xml",
    "text/css", "text/html", "text/javascript", "text/plain"]

/-- The default configuration of FileServer (server.go lines 46-61). -/
def defaultOption : option :=
  { compressibleContentTypes := defaultCompressibleContentTypes
    compressibleContentLength := 1024 }

/-- Go byte-wise string order s < x, on ASCII strings: lexicographic on the
character codes. -/
def goStrLess : List Char → List Char → Bool
  | [], [] => false
  | [], _ :: _ => true
  | _ :: _, [] => false
  | a :: s, b :: t =>
    if a.toNat < b.toNat then true
    else if b.toNat < a.toNat then false
    else goStrLess s t

/-- Go sort.SearchStrings on a sorted slice: the smallest index whose element
is ≥ x, i.e. the number of elements below x; a Go int, always in [0, len]. -/
def searchStrings (a : List String) (x : String) : Int :=
  ((a.takeWhile (fun s => goStrLess s.toList x.toList)).length : Int)

/-- The compressibility test exactly as server.go line 98 writes it:
len(body) ≥ threshold, a nonempty content type, and
sort.SearchStrings(types, contentType) ≥ 0. -/
def isCompressible (opt : option) (body : List Nat) (contentType : String) : Bool :=
  decide (opt.compressibleContentLength ≤ (body.length : Int)) &&
  decide (contentType ≠ "") &&
  decide (0 ≤ searchStrings opt.compressibleContentTypes contentType)

/-- What kind of handler a routing-table entry holds: the per-file content
handler, or the index.html redirect handler. -/
inductive RouteEntry where
  | content
  | redirect
  deriving DecidableEq, Repr

/-- The index of the last slash of the character list, or -1 (the
strings.LastIndex(path, "/") inside Go path.Split). -/
def lastSlashIdx (s : List Char) : Int :=
  match ((List.range s.length).filter (fun i => s[i]? == some '/')).getLast? with
  | some i => (i : Int)
  | none => -1

/-- Go path.Split, directory part: everything up to and including the final
slash (empty when the path has no slash). -/
def splitDir (p : String) : String :=
  String.mk (p.toList.take (lastSlashIdx p.toList + 1).toNat)

/-- Go path.Split, file part: everything after the final slash. -/
def splitFile (p : String) : String :=
  String.mk (p.toList.drop (lastSlashIdx p.toList + 1).toNat)

/-- Go strings.HasSuffix(s, "/") for the one-character suffix. -/
def endsWithSlash (s : String) : Bool :=
  s.toList.getLast? == some '/'

/-- Go strings.TrimSuffix(s, "/") when the suffix is known present: drop the
final character. -/
def dropLastChar (s : String) : String :=
  String.mk s.toList.dropLast

/-- Lines 153-155 of server.go: strip the trailing slash from the directory
path unless the directory is the root. -/
def stripDirSlash (dir : String) : String :=
  if dir ≠ "/" ∧ endsWithSlash dir then dropLastChar dir else dir

/-- The routing-table installation step for one walked file (server.go lines
152-167). A file whose base name is index.html installs the content handler
under the stripped directory path and a redirect entry under the literal
path; any other file installs the content handler under its own path. Map
assignment is modelled by consing, with assocLookup taking the newest
binding. -/
def installFile (contents : List (String × RouteEntry)) (upath : String) :
    List (String × RouteEntry) :=
  if splitFile upath = "index.html" then
    (upath, RouteEntry.redirect) :: (stripDirSlash (splitDir upath), RouteEntry.content) :: contents
  else (upath, RouteEntry.content) :: contents

/-- The redirect handler body (server.go lines 157-164): status 301 with a
Location of "./" plus "?" and the raw query when that is nonempty. -/
def redirectResponse (rawQuery : String) : Nat × List (String × String) :=
  (301, [("Location", "./" ++ (if rawQuery ≠ "" then "?" ++ rawQuery else ""))])

/-- The backtracking while-loop inside Go path.Clean's dotdot case: starting
from a candidate kept-length, keep shrinking while the length exceeds dotdot
and the buffer character at the kept-length is not a slash. -/
def shrinkW (buf : List Char) (dotdot : Nat) : Nat → Nat
  | 0 => 0
  | w + 1 =>
    if dotdot < w + 1 ∧ buf[w + 1]? ≠ some '/' then shrinkW buf dotdot w
    else w + 1

/-- Go path.Clean's dotdot backtrack: out.w-- followed by the shrink loop,
keeping the resulting prefix of the output buffer. -/
def popSeg (out : List Char) (dotdot : Nat) : List Char :=
  out.take (shrinkW out dotdot (out.length - 1))

/-- The main loop of Go path.Clean, processing the remaining input with the
output buffer and the dotdot barrier; a direct transcription of the switch in
path/path.go. The extra fuel argument only bounds the recursion so the
function is structural (and so the kernel can evaluate it): every iteration
consumes at least one input character, so fuel equal to the input length is
never exhausted. -/
def cleanLoop (rooted : Bool) : Nat → List Char → List Char → Nat → List Char
  | 0, _, out, _ => out
  | _ + 1, [], out, _ => out
  | fuel + 1, '/' :: t, out, dotdot => cleanLoop rooted fuel t out dotdot
  | _ + 1, ['.'], out, _ => out
  | fuel + 1, '.' :: '/' :: t, out, dotdot => cleanLoop rooted fuel ('/' :: t) out dotdot
  | _ + 1, ['.', '.'], out, dotdot =>
    if dotdot < out.length then popSeg out dotdot
    else if rooted then out
    else (if out.length ≠ 0 then out ++ ['/'] else out) ++ ['.', '.']
  | fuel + 1, '.' :: '.' :: '/' :: t, out, dotdot =>
    if dotdot < out.length then cleanLoop rooted fuel ('/' :: t) (popSeg out dotdot) dotdot
    else if rooted then cleanLoop rooted fuel ('/' :: t) out dotdot
    else
      let out2 := (if out.length ≠ 0 then out ++ ['/'] else out) ++ ['.', '.']
      cleanLoop rooted fuel ('/' :: t) out2 out2.length
  | fuel + 1, c :: t, out, dotdot =>
    let out2 := if (rooted ∧ out.length ≠ 1) ∨ ((¬ rooted) ∧ out.length ≠ 0) then out ++ ['/'] else out
    cleanLoop rooted fuel (t.dropWhile (fun ch => ch ≠ '/')) (out2 ++ c :: t.takeWhile (fun ch => ch ≠ '/')) dotdot

/-- Go path.Clean: empty input is ".", a rooted path starts the buffer with
the slash and the dotdot barrier at 1, and an empty final buffer is ".". -/
def pathClean (p : String) : String :=
  if p = "" then "." else
  let cs := p.toList
  if cs.head? = some '/' then
    String.mk (cleanLoop true cs.length (cs.drop 1) ['/'] 1)
  else
    let out := cleanLoop false cs.length cs [] 0
    if out.length = 0 then "." else String.mk out

/-- net/http Header.Add in the model: append the pair, never replacing
existing entries. -/
def headerAdd (hdrs : List (String × String)) (k v : String) : List (String × String) :=
  hdrs ++ [(k, v)]

/-- Where the dispatcher sends the request: the configured not-found handler,
or the matched routing-table entry. -/
inductive DispatchTarget where
  | toNotFound
  | toEntry (e : RouteEntry)
  deriving DecidableEq, Repr

/-- The top-level handler of server.go lines 172-188: ensure a leading slash,
clean the path, look it up; a miss delegates to the not-found handler without
touching the headers, a hit adds Vary: Accept-Encoding and delegates to the
matched entry. The hdrs argument is the response-header state the dispatcher
may extend. -/
def dispatch (contents : List (String × RouteEntry)) (hdrs : List (String × String))
    (reqPath : String) : DispatchTarget × List (String × String) :=
  let upath := if reqPath.toList.head? = some '/' then reqPath else "/" ++ reqPath
  match assocLookup (pathClean upath) contents with
  | none => (DispatchTarget.toNotFound, hdrs)
  | some e => (DispatchTarget.toEntry e, headerAdd hdrs "Vary" "Accept-Encoding")

end Statics

namespace Statics

/-! Claim theorems. Helper lemmas for the stable reference sort and the
selection loop come first. -/

theorem insertDesc_perm (x : AcceptEncoding) (l : List AcceptEncoding) :
    (insertDesc x l).Perm (x :: l) := by
  induction l with
  | nil => exact List.Perm.refl _
  | cons y ys ih =>
    simp only [insertDesc]
    split
    · exact List.Perm.refl _
    · exact (ih.cons y).trans (List.Perm.swap x y ys)

theorem insertDesc_sorted (x : AcceptEncoding) (l : List AcceptEncoding)
    (h : qSortedDesc l) : qSortedDesc (insertDesc x l) := by
  induction l with
  | nil => simp [insertDesc, qSortedDesc]
  | cons y ys ih =>
    have hy : ∀ b ∈ ys, b.QualityValue ≤ y.QualityValue := (List.pairwise_cons.mp h).1
    have hys : qSortedDesc ys := (List.pairwise_cons.mp h).2
    simp only [insertDesc]
    split
    · rename_i hle
      refine List.pairwise_cons.mpr ⟨?_, h⟩
      intro b hb
      rcases List.mem_cons.mp hb with rfl | hbys
      · exact hle
      · exact (hy b hbys).trans hle
    · rename_i hgt
      refine List.pairwise_cons.mpr ⟨?_, ih hys⟩
      intro b hb
      rcases List.mem_cons.mp ((insertDesc_perm x ys).mem_iff.mp hb) with rfl | hbys
      · exact le_of_not_le hgt
      · exact hy b hbys

theorem stableSortDesc_perm (l : List AcceptEncoding) : (stableSortDesc l).Perm l := by
  induction l with
  | nil => exact List.Perm.refl _
  | cons x xs ih =>
    simp only [stableSortDesc]
    exact (insertDesc_perm x (stableSortDesc xs)).trans (ih.cons x)

theorem stableSortDesc_sorted (l : List AcceptEncoding) : qSortedDesc (stableSortDesc l) := by
  induction l with
  | nil => simp [stableSortDesc, qSortedDesc]
  | cons x xs ih => simpa only [stableSortDesc] using insertDesc_sorted x _ ih

/-- Claim C1 (code evidence): under the default configuration, a 1024-byte
body of detected content type image/png — a type NOT in the configured
compressibleContentTypes — is classified compressible by the test of
server.go line 98. The test compares sort.SearchStrings(types, x) with ≥ 0,
but SearchStrings returns an insertion index in [0, len], so the comparison
always holds and the content-type membership gate the claim describes is
absent from the code. -/
theorem C1_membership_gate_ineffective :
    isCompressible defaultOption (List.replicate 1024 0) "image/png" = true ∧
    "image/png" ∉ defaultOption.compressibleContentTypes ∧
    ∀ types x, 0 ≤ searchStrings types x := by
  refine ⟨by decide, by decide, ?_⟩
  intro types x
  exact Int.natCast_nonneg _

/-- Claim C2 (counterexample to stability): for the header value
"b;q=0.5, a;q=0.5, c;q=1.0", the output c(1), a(1/2), b(1/2) satisfies the
sort.Slice postcondition — a permutation of the collected tokens, ordered by
weight descending — yet the equal-weight entries a and b appear in the
opposite of their input order, differing from the stable descending sort of
the collection. The code sorts with sort.Slice, which Go documents as not
stable, so the claimed stable order is not ensured. -/
theorem C2_stability_not_guaranteed :
    ParseAcceptEncodingSpec ["b;q=0.5, a;q=0.5, c;q=1.0"]
      [⟨"c", 1⟩, ⟨"a", mkRat 1 2⟩, ⟨"b", mkRat 1 2⟩] ∧
    [⟨"c", 1⟩, ⟨"a", mkRat 1 2⟩, ⟨"b", mkRat 1 2⟩] ≠
      stableSortDesc (collectAcceptEncoding ["b;q=0.5, a;q=0.5, c;q=1.0"]) := by
  decide

/-- Claim C2 (amended): every admissible ParseAcceptEncoding output is a
permutation of the collected (algorithm, weight) pairs that is ordered by
weight descending, and its weight sequence is uniquely determined (it equals
that of the stable descending sort); the stable order itself is one
admissible output. The relative order of equal-weight entries is NOT
guaranteed to be the input order, because the code uses sort.Slice rather
than sort.SliceStable. -/
theorem C2_sorted_by_weight_descending (values : List String) (out : List AcceptEncoding)
    (h : ParseAcceptEncodingSpec values out) :
    (collectAcceptEncoding values).Perm out ∧ qSortedDesc out ∧
    out.map AcceptEncoding.QualityValue =
      (stableSortDesc (collectAcceptEncoding values)).map AcceptEncoding.QualityValue ∧
    ParseAcceptEncodingSpec values (stableSortDesc (collectAcceptEncoding values)) := by
  obtain ⟨hperm, hsorted⟩ := h
  have hsp : (stableSortDesc (collectAcceptEncoding values)).Perm (collectAcceptEncoding values) :=
    stableSortDesc_perm _
  have hss : qSortedDesc (stableSortDesc (collectAcceptEncoding values)) :=
    stableSortDesc_sorted _
  refine ⟨hperm, hsorted, ?_, hsp.symm, hss⟩
  haveI : IsAntisymm ℚ (fun a b : ℚ => b ≤ a) := ⟨fun a b h1 h2 => le_antisymm h2 h1⟩
  have h1 : List.Sorted (fun a b : ℚ => b ≤ a) (out.map AcceptEncoding.QualityValue) :=
    List.Pairwise.map _ (fun a b hab => hab) hsorted
  have h2 : List.Sorted (fun a b : ℚ => b ≤ a)
      ((stableSortDesc (collectAcceptEncoding values)).map AcceptEncoding.QualityValue) :=
    List.Pairwise.map _ (fun a b hab => hab) hss
  exact List.eq_of_perm_of_sorted
    ((hperm.symm.trans hsp.symm).map AcceptEncoding.QualityValue) h1 h2

/-- Claim C2 witness: the amended theorem applied to the header value
"gzip;q=0.8, deflate" and the admissible output deflate(1), gzip(4/5). -/
theorem C2_sorted_by_weight_descending_witness :
    (collectAcceptEncoding ["gzip;q=0.8, deflate"]).Perm
      [⟨"deflate", 1⟩, ⟨"gzip", mkRat 4 5⟩] ∧
    qSortedDesc [⟨"deflate", 1⟩, ⟨"gzip", mkRat 4 5⟩] ∧
    ([⟨"deflate", 1⟩, ⟨"gzip", mkRat 4 5⟩] : List AcceptEncoding).map
        AcceptEncoding.QualityValue =
      (stableSortDesc (collectAcceptEncoding ["gzip;q=0.8, deflate"])).map
        AcceptEncoding.QualityValue ∧
    ParseAcceptEncodingSpec ["gzip;q=0.8, deflate"]
      (stableSortDesc (collectAcceptEncoding ["gzip;q=0.8, deflate"])) :=
  C2_sorted_by_weight_descending ["gzip;q=0.8, deflate"]
    [⟨"deflate", 1⟩, ⟨"gzip", mkRat 4 5⟩] (by decide)

end Statics

namespace Statics

/-- Claim C3: a request carrying a Range header to a resource with variants
bypasses Accept-Encoding negotiation entirely: whatever preference list the
Accept-Encoding header parses to, the handler hands the raw uncompressed body
to the range-capable responder and never serves a compressed variant. -/
theorem C3_range_request_bypasses_negotiation (compressed : List (String × List Nat))
    (contentType lastModified : String) (body : List Nat) (req : Request)
    (prefs : List AcceptEncoding) (h : req.rangeHeader ≠ "") :
    negotiate compressed contentType lastModified body req prefs =
      NegotiationResult.rangeServe contentType body ∧
    ∀ hs st b, negotiate compressed contentType lastModified body req prefs ≠
      NegotiationResult.compressed hs st b := by
  have hres : negotiate compressed contentType lastModified body req prefs =
      NegotiationResult.rangeServe contentType body := by
    simp [negotiate, h]
  exact ⟨hres, fun hs st b hcon => by rw [hres] at hcon; exact NegotiationResult.noConfusion hcon⟩

/-- Claim C3 witness: a Range request with strong deflate preference still
receives the raw body through the range-capable responder. -/
theorem C3_range_request_bypasses_negotiation_witness :
    negotiate (buildVariants id id [7, 8]) "text/html" "LM" [7, 8]
      ⟨"GET", "bytes=0-10", ["gzip;q=0.1, deflate;q=0.9"], ""⟩
      [⟨"deflate", mkRat 9 10⟩, ⟨"gzip", mkRat 1 10⟩] =
      NegotiationResult.rangeServe "text/html" [7, 8] :=
  (C3_range_request_bypasses_negotiation (buildVariants id id [7, 8]) "text/html" "LM"
    [7, 8] ⟨"GET", "bytes=0-10", ["gzip;q=0.1, deflate;q=0.9"], ""⟩
    [⟨"deflate", mkRat 9 10⟩, ⟨"gzip", mkRat 1 10⟩] (by decide)).1

/-- Claim C4: the variant map built for a compressible file has exactly the
two keys gzip and deflate — never the wildcard — and each key maps to the
eagerly computed compression of the raw body; under the stdlib round-trip
contracts of the gzip and zlib writers, each variant decompresses back to
exactly the raw body bytes. -/
theorem C4_variants_exact_and_roundtrip
    (gzipCompress gzipDecompress deflateCompress deflateDecompress : List Nat → List Nat)
    (body : List Nat)
    (hgz : ∀ b, gzipDecompress (gzipCompress b) = b)
    (hdf : ∀ b, deflateDecompress (deflateCompress b) = b) :
    (buildVariants gzipCompress deflateCompress body).map Prod.fst = ["gzip", "deflate"] ∧
    assocLookup "*" (buildVariants gzipCompress deflateCompress body) = none ∧
    assocLookup "gzip" (buildVariants gzipCompress deflateCompress body) =
      some (gzipCompress body) ∧
    assocLookup "deflate" (buildVariants gzipCompress deflateCompress body) =
      some (deflateCompress body) ∧
    gzipDecompress
      ((assocLookup "gzip" (buildVariants gzipCompress deflateCompress body)).getD []) = body ∧
    deflateDecompress
      ((assocLookup "deflate" (buildVariants gzipCompress deflateCompress body)).getD []) =
      body := by
  refine ⟨rfl, by simp [buildVariants, assocLookup], by simp [buildVariants, assocLookup],
    by simp [buildVariants, assocLookup], ?_, ?_⟩
  · show gzipDecompress (gzipCompress body) = body
    exact hgz body
  · show deflateDecompress (deflateCompress body) = body
    exact hdf body

/-- Claim C4 witness: the round-trip theorem applied with the identity
compressors, whose inverse contract holds definitionally. -/
theorem C4_variants_exact_and_roundtrip_witness :
    (buildVariants id id [1, 2, 3]).map Prod.fst = ["gzip", "deflate"] ∧
    assocLookup "*" (buildVariants id id [1, 2, 3]) = none ∧
    assocLookup "gzip" (buildVariants id id [1, 2, 3]) = some (id [1, 2, 3]) ∧
    assocLookup "deflate" (buildVariants id id [1, 2, 3]) = some (id [1, 2, 3]) ∧
    id ((assocLookup "gzip" (buildVariants id id [1, 2, 3])).getD []) = [1, 2, 3] ∧
    id ((assocLookup "deflate" (buildVariants id id [1, 2, 3])).getD []) = [1, 2, 3] :=
  C4_variants_exact_and_roundtrip id id id id [1, 2, 3] (fun _ => rfl) (fun _ => rfl)

theorem selectAlgorithm_of_isFirstMatch (prefs : List AcceptEncoding)
    (compressed : List (String × List Nat)) (a : String)
    (h : isFirstMatch prefs compressed a) : selectAlgorithm prefs compressed = a := by
  obtain ⟨pre, p, post, rfl, rfl, hsome, hpre⟩ := h
  revert hpre
  induction pre with
  | nil => intro _; simp [selectAlgorithm, hsome]
  | cons q pre ih =>
    intro hpre
    have hq := hpre q (List.mem_cons_self q pre)
    simp only [List.cons_append, selectAlgorithm, hq, Bool.false_eq_true, if_false]
    exact ih (fun r hr => hpre r (List.mem_cons_of_mem q hr))

theorem selectAlgorithm_ignores_weights (prefs : List AcceptEncoding)
    (compressed : List (String × List Nat)) :
    selectAlgorithm (prefs.map (fun p => ⟨p.Algorithm, 0⟩)) compressed =
      selectAlgorithm prefs compressed := by
  induction prefs with
  | nil => rfl
  | cons p rest ih =>
    by_cases hc : (assocLookup p.Algorithm compressed).isSome = true
    · simp [selectAlgorithm, hc]
    · simp [selectAlgorithm, hc, ih]

/-- Claim C5: for a non-Range request to a resource with variants, the
handler selects the first algorithm of the parsed preference order that is a
key of the variant map; the weight value itself does not gate the selection —
the loop reads only algorithm names, so an entry of weight 0 is still
selected when it is the first match — and on a match the response is status
200 with Accept-Ranges, Last-Modified, Content-Encoding and Content-Type set
and the full compressed body. -/
theorem C5_first_match_wins (values : List String)
    (gzipCompress deflateCompress : List Nat → List Nat)
    (contentType lastModified : String) (body bs : List Nat) (req : Request)
    (prefs : List AcceptEncoding) (a : String)
    (hparse : ParseAcceptEncodingSpec values prefs)
    (hreq : req.acceptEncodingValues = values)
    (hrange : req.rangeHeader = "")
    (hmethod : req.method ≠ "HEAD")
    (hmatch : isFirstMatch prefs (buildVariants gzipCompress deflateCompress body) a)
    (hbs : assocLookup a (buildVariants gzipCompress deflateCompress body) = some bs) :
    negotiate (buildVariants gzipCompress deflateCompress body) contentType lastModified body
      req prefs =
      NegotiationResult.compressed
        [("Accept-Ranges", "bytes"), ("Last-Modified", lastModified),
          ("Content-Encoding", a), ("Content-Type", contentType)]
        200 bs ∧
    selectAlgorithm (prefs.map (fun p => ⟨p.Algorithm, 0⟩))
      (buildVariants gzipCompress deflateCompress body) = a := by
  have hsel : selectAlgorithm prefs (buildVariants gzipCompress deflateCompress body) = a :=
    selectAlgorithm_of_isFirstMatch _ _ _ hmatch
  have hcase : a = "gzip" ∨ a = "deflate" := by
    by_cases h1 : "gzip" = a
    · exact Or.inl h1.symm
    · by_cases h2 : "deflate" = a
      · exact Or.inr h2.symm
      · exfalso
        have hnone : assocLookup a (buildVariants gzipCompress deflateCompress body) = none := by
          simp [buildVariants, assocLookup, h1, h2]
        rw [hnone] at hbs
        exact Option.noConfusion hbs
  have hne : a ≠ "" := by
    rcases hcase with rfl | rfl <;> decide
  constructor
  · simp [negotiate, hrange, hsel, hne, hmethod, hbs]
  · rw [selectAlgorithm_ignores_weights]
    exact hsel

/-- Claim C5 witness: a request declaring only gzip at weight 0 still gets the
gzip variant, with the four headers set and the full body. -/
theorem C5_first_match_wins_witness :
    negotiate (buildVariants id id [1, 2, 3]) "text/css" "LM" [1, 2, 3]
      ⟨"GET", "", ["gzip;q=0"], ""⟩ [⟨"gzip", 0⟩] =
      NegotiationResult.compressed
        [("Accept-Ranges", "bytes"), ("Last-Modified", "LM"),
          ("Content-Encoding", "gzip"), ("Content-Type", "text/css")]
        200 [1, 2, 3] ∧
    selectAlgorithm (([⟨"gzip", 0⟩] : List AcceptEncoding).map (fun p => ⟨p.Algorithm, 0⟩))
      (buildVariants id id [1, 2, 3]) = "gzip" :=
  C5_first_match_wins ["gzip;q=0"] id id "text/css" "LM" [1, 2, 3] [1, 2, 3]
    ⟨"GET", "", ["gzip;q=0"], ""⟩ [⟨"gzip", 0⟩] "gzip" (by decide) rfl rfl (by decide)
    ⟨[], ⟨"gzip", 0⟩, [], rfl, rfl, by decide, fun q hq => (List.not_mem_nil q hq).elim⟩ rfl

theorem selectAlgorithm_no_match (prefs : List AcceptEncoding)
    (compressed : List (String × List Nat)) :
    (∀ p ∈ prefs, (assocLookup p.Algorithm compressed).isSome = false) →
    selectAlgorithm prefs compressed = "" := by
  induction prefs with
  | nil => intro _; rfl
  | cons p rest ih =>
    intro h
    have hp := h p (List.mem_cons_self p rest)
    simp only [selectAlgorithm, hp, Bool.false_eq_true, if_false]
    exact ih (fun q hq => h q (List.mem_cons_of_mem p hq))

/-- Claim C7: a non-Range request whose parsed preference order contains no
algorithm that is a key of the variant map is not an error: the handler falls
back to the raw uncompressed body through the range-capable responder, and
the headers set on that branch carry no Content-Encoding (http.ServeContent
never sets one). -/
theorem C7_negotiation_miss_serves_raw (values : List String)
    (gzipCompress deflateCompress : List Nat → List Nat)
    (contentType lastModified : String) (body : List Nat) (req : Request)
    (prefs : List AcceptEncoding)
    (hparse : ParseAcceptEncodingSpec values prefs)
    (hreq : req.acceptEncodingValues = values)
    (hrange : req.rangeHeader = "")
    (hmiss : ∀ p ∈ prefs,
      (assocLookup p.Algorithm (buildVariants gzipCompress deflateCompress body)).isSome =
        false) :
    negotiate (buildVariants gzipCompress deflateCompress body) contentType lastModified body
      req prefs = NegotiationResult.rangeServe contentType body ∧
    assocLookup "Content-Encoding"
      (resultHeaders (negotiate (buildVariants gzipCompress deflateCompress body) contentType
        lastModified body req prefs)) = none := by
  have hsel := selectAlgorithm_no_match prefs _ hmiss
  have hres : negotiate (buildVariants gzipCompress deflateCompress body) contentType
      lastModified body req prefs = NegotiationResult.rangeServe contentType body := by
    simp [negotiate, hrange, hsel]
  refine ⟨hres, ?_⟩
  rw [hres]
  rfl

/-- Claim C7 witness: the spec's own example — Accept-Encoding br;q=1.0
against variants gzip and deflate — receives the raw body with no
Content-Encoding header. -/
theorem C7_negotiation_miss_serves_raw_witness :
    negotiate (buildVariants id id [9]) "text/css" "LM" [9]
      ⟨"GET", "", ["br;q=1.0"], ""⟩ [⟨"br", 1⟩] =
      NegotiationResult.rangeServe "text/css" [9] ∧
    assocLookup "Content-Encoding"
      (resultHeaders (negotiate (buildVariants id id [9]) "text/css" "LM" [9]
        ⟨"GET", "", ["br;q=1.0"], ""⟩ [⟨"br", 1⟩])) = none :=
  C7_negotiation_miss_serves_raw ["br;q=1.0"] id id "text/css" "LM" [9]
    ⟨"GET", "", ["br;q=1.0"], ""⟩ [⟨"br", 1⟩] (by decide) rfl rfl (by decide)

end Statics

namespace Statics

theorem stripDirSlash_length_le (d : String) :
    (stripDirSlash d).toList.length ≤ d.toList.length := by
  unfold stripDirSlash dropLastChar
  split
  · show (d.toList.dropLast).length ≤ d.toList.length
    rw [List.length_dropLast]
    omega
  · exact le_refl _

/-- Claim C6: installing a file whose base name is index.html creates two
routing entries: the literal path maps to the redirect entry, while the
directory path — the path with the index filename removed (a 10-character
suffix), then the trailing slash stripped unless it is the root — maps to the
content entry; and the redirect handler replies 301 with a Location of "./"
plus "?" and the request's query string when that is nonempty. -/
theorem C6_index_html_aliasing (contents : List (String × RouteEntry)) (upath q : String)
    (h : splitFile upath = "index.html") :
    assocLookup upath (installFile contents upath) = some RouteEntry.redirect ∧
    assocLookup (stripDirSlash (splitDir upath)) (installFile contents upath) =
      some RouteEntry.content ∧
    splitDir upath = String.mk (upath.toList.take (upath.toList.length - 10)) ∧
    redirectResponse q = (301, [("Location", "./" ++ (if q ≠ "" then "?" ++ q else ""))]) := by
  set cs := upath.toList with hcs
  set k := (lastSlashIdx cs + 1).toNat with hk
  have hdata : cs.drop k = "index.html".toList := congrArg String.toList h
  have hdropLen : cs.length - k = 10 := by
    have := congrArg List.length hdata
    simpa [List.length_drop] using this
  have hlen : cs.length = k + 10 := by omega
  have hd : (splitDir upath).toList = cs.take k := rfl
  have hne : stripDirSlash (splitDir upath) ≠ upath := by
    intro he
    have h1 := stripDirSlash_length_le (splitDir upath)
    have h2 : (splitDir upath).toList.length = min k cs.length := by
      rw [hd]; exact List.length_take k cs
    have h3 : (stripDirSlash (splitDir upath)).toList.length = cs.length := by rw [he]
    omega
  have hinstall : installFile contents upath =
      (upath, RouteEntry.redirect) :: (stripDirSlash (splitDir upath), RouteEntry.content) ::
        contents := by
    unfold installFile
    rw [if_pos h]
  refine ⟨?_, ?_, ?_, rfl⟩
  · rw [hinstall]
    simp [assocLookup]
  · rw [hinstall]
    show (if upath = stripDirSlash (splitDir upath) then some RouteEntry.redirect
      else assocLookup (stripDirSlash (splitDir upath))
        ((stripDirSlash (splitDir upath), RouteEntry.content) :: contents)) =
      some RouteEntry.content
    rw [if_neg (fun hh => hne hh.symm)]
    show (if stripDirSlash (splitDir upath) = stripDirSlash (splitDir upath) then
      some RouteEntry.content else assocLookup (stripDirSlash (splitDir upath)) contents) =
      some RouteEntry.content
    rw [if_pos rfl]
  · have hk10 : k = cs.length - 10 := by omega
    show String.mk (cs.take k) = String.mk (cs.take (cs.length - 10))
    rw [hk10]

/-- Claim C6 witness: the file /docs/index.html is installed as a redirect at
its literal path and as content at /docs, and a request with query x=1 is
redirected to Location "./?x=1" with status 301. -/
theorem C6_index_html_aliasing_witness :
    assocLookup "/docs/index.html" (installFile [] "/docs/index.html") =
      some RouteEntry.redirect ∧
    assocLookup "/docs" (installFile [] "/docs/index.html") = some RouteEntry.content ∧
    redirectResponse "x=1" = (301, [("Location", "./?x=1")]) := by
  obtain ⟨h1, h2, _h3, h4⟩ := C6_index_html_aliasing [] "/docs/index.html" "x=1" (by decide)
  refine ⟨h1, ?_, ?_⟩
  · have e : stripDirSlash (splitDir "/docs/index.html") = "/docs" := by decide
    rw [e] at h2
    exact h2
  · have e2 : ("./" ++ (if ("x=1" : String) ≠ "" then "?" ++ "x=1" else "")) = "./?x=1" := by
      decide
    rw [e2] at h4
    exact h4

/-- Claim C8 (counterexample): the token ";q=abc" carries the ";q=" marker
(at index 0) with the unparsable weight suffix "abc", yet ParseAcceptEncoding
does not discard it: the code's guard is i > 0, so the token is kept whole at
default weight 1 and the output is nonempty where the claim predicts the
token contributes nothing. -/
theorem C8_marker_at_index_zero_kept :
    parseToken ";q=abc" = some ⟨";q=abc", 1⟩ ∧
    collectAcceptEncoding [";q=abc"] = [⟨";q=abc", 1⟩] ∧
    ParseAcceptEncodingSpec [";q=abc"] [⟨";q=abc", 1⟩] := by
  decide

/-- Claim C8 (amended): a token whose LAST ";q=" marker occurs at a positive
index and whose weight suffix fails to parse is silently discarded — it
contributes nothing to the collection and the surrounding tokens are still
parsed — so the single value "gzip;q=abc" yields the empty list; a token
whose marker occurs at index 0 is instead treated as markerless and kept
whole at default weight 1. -/
theorem C8_unparsable_weight_discarded (w : String) (pre post : List String)
    (hpos : 0 < lastIndexMarker w.toList)
    (hfail : parseQ (trimSpace (String.mk
      (w.toList.drop ((lastIndexMarker w.toList).toNat + 3)))) = none) :
    parseToken w = none ∧
    (pre ++ w :: post).filterMap parseToken = (pre ++ post).filterMap parseToken ∧
    collectAcceptEncoding ["gzip;q=abc"] = [] := by
  have hnone : parseToken w = none := by
    simp only [parseToken]
    rw [if_pos hpos, hfail]
  refine ⟨hnone, ?_, by decide⟩
  simp [List.filterMap_append, hnone]

/-- Claim C8 witness: the amended theorem applied to the token "gzip;q=abc"
between two well-formed tokens. -/
theorem C8_unparsable_weight_discarded_witness :
    parseToken "gzip;q=abc" = none ∧
    (["a"] ++ "gzip;q=abc" :: ["b"]).filterMap parseToken =
      (["a"] ++ ["b"]).filterMap parseToken ∧
    collectAcceptEncoding ["gzip;q=abc"] = [] :=
  C8_unparsable_weight_discarded "gzip;q=abc" ["a"] ["b"] (by decide) (by decide)

/-- Claim C9: the dispatcher normalizes the request path (a leading slash is
ensured, then the path is cleaned) and looks the result up in the routing
table: a miss delegates to the configured not-found handler with the response
headers untouched; a hit adds — never overwrites — a Vary: Accept-Encoding
header, so every previously set header survives and every matched response
carries the Vary header, and then delegates to the matched entry. -/
theorem C9_dispatch_normalize_lookup_vary (contents : List (String × RouteEntry))
    (hdrs : List (String × String)) (reqPath : String) :
    (assocLookup
        (pathClean (if reqPath.toList.head? = some '/' then reqPath else "/" ++ reqPath))
        contents = none →
      dispatch contents hdrs reqPath = (DispatchTarget.toNotFound, hdrs)) ∧
    (∀ e, assocLookup
        (pathClean (if reqPath.toList.head? = some '/' then reqPath else "/" ++ reqPath))
        contents = some e →
      dispatch contents hdrs reqPath =
        (DispatchTarget.toEntry e, hdrs ++ [("Vary", "Accept-Encoding")]) ∧
      ("Vary", "Accept-Encoding") ∈ (dispatch contents hdrs reqPath).2 ∧
      ∀ h0 ∈ hdrs, h0 ∈ (dispatch contents hdrs reqPath).2) := by
  constructor
  · intro hmiss
    simp only [dispatch]
    rw [hmiss]
  · intro e he
    have hd : dispatch contents hdrs reqPath =
        (DispatchTarget.toEntry e, hdrs ++ [("Vary", "Accept-Encoding")]) := by
      simp only [dispatch, headerAdd]
      rw [he]
    refine ⟨hd, ?_, ?_⟩
    · rw [hd]
      simp
    · intro h0 h0m
      rw [hd]
      simp [h0m]

/-- Claim C9 witness: the path "y/../x" (no leading slash) is normalized to
"/x", matched, and the prior header survives next to the added Vary
header. -/
theorem C9_dispatch_normalize_lookup_vary_witness :
    dispatch [("/x", RouteEntry.content)] [("A", "1")] "y/../x" =
      (DispatchTarget.toEntry RouteEntry.content, [("A", "1"), ("Vary", "Accept-Encoding")]) ∧
    ("Vary", "Accept-Encoding") ∈ (dispatch [("/x", RouteEntry.content)] [("A", "1")] "y/../x").2 ∧
    ∀ h0 ∈ [("A", "1")], h0 ∈ (dispatch [("/x", RouteEntry.content)] [("A", "1")] "y/../x").2 :=
  (C9_dispatch_normalize_lookup_vary [("/x", RouteEntry.content)] [("A", "1")] "y/../x").2
    RouteEntry.content (by decide)

/-- Claim C10 (counterexample to the only-empty-input clause): the one-element
input list holding "gzip;q=abc" is not empty, yet its collection is empty and
the empty list is an admissible parse output, so an empty output does not
imply an empty input list. -/
theorem C10_nonempty_input_empty_output :
    collectAcceptEncoding ["gzip;q=abc"] = [] ∧
    ParseAcceptEncodingSpec ["gzip;q=abc"] [] ∧
    (["gzip;q=abc"] : List String) ≠ [] := by
  decide

/-- Claim C10 (amended): parsing the single empty-string value yields exactly
one preference, the empty algorithm name at default weight 1 — a
present-but-blank header value is kept, not dropped — and the empty input
list yields the empty output; an empty output can however also arise from a
nonempty input whose tokens are all discarded. -/
theorem C10_blank_value_kept (out out2 : List AcceptEncoding)
    (h : ParseAcceptEncodingSpec [""] out)
    (h2 : ParseAcceptEncodingSpec [] out2) :
    out = [⟨"", 1⟩] ∧ out2 = [] := by
  constructor
  · have hcol : collectAcceptEncoding [""] = [⟨"", 1⟩] := by decide
    have hp := h.1
    rw [hcol] at hp
    exact (List.singleton_perm.mp hp).symm
  · have hp2 := h2.1
    have hcol2 : collectAcceptEncoding [] = [] := rfl
    rw [hcol2] at hp2
    exact List.perm_nil.mp hp2.symm

/-- Claim C10 witness: the amended theorem applied to the blank value and the
empty value list with their admissible outputs. -/
theorem C10_blank_value_kept_witness :
    ([⟨"", 1⟩] : List AcceptEncoding) = [⟨"", 1⟩] ∧ ([] : List AcceptEncoding) = [] :=
  C10_blank_value_kept [⟨"", 1⟩] [] (by decide) (by decide)

end Statics
